import Mathlib

/-!
Verification of the ReLumiStudio message-decoding and placeholder-tracing core.

The definitions below are shallow embeddings of the TypeScript sources:
  * src/dataManager.ts   — the asset decoder (parseMessageAsset, commitWord) and message store;
  * src/extension.ts     — ScriptTracer (GROUP_TO_TYPE, resolveTagIndex, findWriterCommand);
  * src/traceProvider.ts — TraceHoverProvider.traceSource (same search skeleton);
  * src/indexer.ts       — ScriptIndexer (parseFile, getPredecessors);
  * src/completionProvider.ts — getCommandContext, parseArgs (the shared invocation parser);
  * src/hoverProvider.ts — its own getCommandContext / parseArgs variants.

File contents are modelled as lists of lines (the sources split file text on
line terminators before scanning); strings are Unicode, with JavaScript's
whitespace classes and case mapping restricted to their ASCII behaviour.
JavaScript runtime faults (a TypeError from indexing past an array, a rejected
file read) are modelled with Except/Option so that a crash is a first-class
outcome rather than an arbitrary value.
-/

set_option maxRecDepth 4000

/-! ## JavaScript string and number primitives -/

/-- Whitespace as matched by a JavaScript regular-expression class (ASCII part). -/
def jsIsSpace (c : Char) : Bool :=
  c = ' ' || c = '\t' || c = '\n' || c = '\r' || c = '\x0b' || c = '\x0c'

/-- Digit value accumulator for decimal digit runs. -/
def decDigitsVal (ds : List Char) : Nat :=
  ds.foldl (fun a c => a * 10 + (c.toNat - 48)) 0

/-- Hexadecimal digit test. -/
def isHexDigitJS (c : Char) : Bool :=
  c.isDigit || ('a' ≤ c && c ≤ 'f') || ('A' ≤ c && c ≤ 'F')

/-- Value of one hexadecimal digit. -/
def hexDigitVal (c : Char) : Nat :=
  if c.isDigit then c.toNat - 48
  else if 'a' ≤ c && c ≤ 'f' then c.toNat - 87
  else c.toNat - 55

/-- Hex digit-run value. -/
def hexDigitsVal (ds : List Char) : Nat :=
  ds.foldl (fun a c => a * 16 + hexDigitVal c) 0

/-- Embedding of JavaScript parseInt with no radix argument: leading whitespace
is skipped, an optional sign is read, a 0x/0X run is parsed as hexadecimal,
otherwise the longest decimal-digit run is taken; no digits gives NaN (none). -/
def jsParseInt (s : String) : Option Int :=
  let cs := s.toList.dropWhile jsIsSpace
  let (sgn, cs) : Int × List Char :=
    match cs with
    | '-' :: r => (-1, r)
    | '+' :: r => (1, r)
    | _ => (1, cs)
  match cs with
  | '0' :: 'x' :: r =>
      let ds := r.takeWhile isHexDigitJS
      if ds.isEmpty then none else some (sgn * (hexDigitsVal ds : Int))
  | '0' :: 'X' :: r =>
      let ds := r.takeWhile isHexDigitJS
      if ds.isEmpty then none else some (sgn * (hexDigitsVal ds : Int))
  | _ =>
      let ds := cs.takeWhile Char.isDigit
      if ds.isEmpty then none else some (sgn * (decDigitsVal ds : Int))

/-- JavaScript String.prototype.trim on the character list (ASCII whitespace). -/
def jsTrimList (cs : List Char) : List Char :=
  ((cs.dropWhile jsIsSpace).reverse.dropWhile jsIsSpace).reverse

/-- JavaScript String.prototype.trim, kernel-computable. -/
def jsTrim (s : String) : String :=
  String.mk (jsTrimList s.toList)

/-- JavaScript String.prototype.startsWith, kernel-computable. -/
def jsStartsWith (s pre : String) : Bool :=
  pre.toList.isPrefixOf s.toList

/-- JavaScript String.prototype.endsWith, kernel-computable. -/
def jsEndsWith (s suf : String) : Bool :=
  suf.toList.reverse.isPrefixOf s.toList.reverse

/-- JavaScript String.prototype.substring(n) - drop the first n characters. -/
def jsDrop (s : String) (n : Nat) : String :=
  String.mk (s.toList.drop n)

/-- JavaScript String.prototype.slice with a negative end - drop the last n
characters. -/
def jsDropRight (s : String) (n : Nat) : String :=
  String.mk (s.toList.take (s.toList.length - n))

/-- JavaScript String.prototype.toLowerCase (ASCII case mapping). -/
def jsToLower (s : String) : String :=
  String.mk (s.toList.map Char.toLower)

/-- parseInt applied to an optional argument: an out-of-range JavaScript array
read yields undefined and parseInt(undefined) is NaN, modelled as none. -/
def jsParseIntOpt (o : Option String) : Option Int :=
  o.bind jsParseInt

/-- Infix test on character lists, used to embed String.prototype.includes. -/
def listHasInfix (needle : List Char) : List Char → Bool
  | [] => needle.isEmpty
  | c :: rest => needle.isPrefixOf (c :: rest) || listHasInfix needle rest

/-- Embedding of content.includes(pat). -/
def jsIncludes (hay pat : String) : Bool :=
  listHasInfix pat.toList hay.toList

/-! ## Association-list maps (JavaScript Map semantics: set overwrites in place) -/

/-- Map.set: overwrite the existing binding in place, else append. -/
def setAssoc {α : Type} (m : List (String × α)) (k : String) (v : α) :
    List (String × α) :=
  match m with
  | [] => [(k, v)]
  | (k', v') :: rest => if k' = k then (k, v) :: rest else (k', v') :: setAssoc rest k v

/-- Map.get as an Option-valued lookup. -/
def getAssoc {α : Type} (m : List (String × α)) (k : String) : Option α :=
  match m with
  | [] => none
  | (k', v') :: rest => if k' = k then some v' else getAssoc rest k

theorem getAssoc_setAssoc_same {α : Type} (m : List (String × α)) (k : String) (v : α) :
    getAssoc (setAssoc m k v) k = some v := by
  induction m with
  | nil => simp [setAssoc, getAssoc]
  | cons h t ih =>
    obtain ⟨k', v'⟩ := h
    by_cases hk : k' = k <;> simp [setAssoc, getAssoc, hk, ih]

theorem getAssoc_setAssoc_other {α : Type} (m : List (String × α)) (k k' : String) (v : α)
    (h : k' ≠ k) : getAssoc (setAssoc m k v) k' = getAssoc m k' := by
  induction m with
  | nil =>
    simp only [setAssoc, getAssoc]
    rw [if_neg (fun hh => h hh.symm)]
  | cons hd t ih =>
    obtain ⟨k₀, v₀⟩ := hd
    by_cases hk : k₀ = k
    · subst hk
      simp only [setAssoc, if_pos rfl, getAssoc]
      rw [if_neg (fun hh => h hh.symm), if_neg (fun hh => h hh.symm)]
    · simp only [setAssoc, if_neg hk, getAssoc]
      by_cases hk' : k₀ = k'
      · rw [if_pos hk', if_pos hk']
      · rw [if_neg hk', if_neg hk', ih]

/-! ## AssetDecoder (src/dataManager.ts, parseMessageAsset lines 111-276) -/

/-- Entry of the per-label tag list: currentLabelTags stores id and group. -/
structure TagDef where
  id : Int
  group : Int
deriving DecidableEq, Repr

/-- Decode-time scratch state of parseMessageAsset's scanning loop. -/
structure DecState where
  inLabelArray : Bool
  currentLabel : String
  currentFullText : String
  wordStr : Option String
  wordEventID : Option Int
  wordTagIndex : Int
  currentLabelTags : List TagDef
  tempTagIndexValue : Int
  tempGroupIDValue : Int
  inTagData : Bool
  inWordData : Bool
  labelMap : List (String × String)
deriving DecidableEq, Repr

/-- Initial scanner state of parseMessageAsset. -/
def initDecState : DecState :=
  { inLabelArray := false
    currentLabel := ""
    currentFullText := ""
    wordStr := none
    wordEventID := none
    wordTagIndex := -1
    currentLabelTags := []
    tempTagIndexValue := -1
    tempGroupIDValue := 1
    inTagData := false
    inWordData := false
    labelMap := [] }

/-- Placeholder token rendered by commitWord for an in-range tag entry. -/
def tagToken (td : TagDef) : String :=
  "\x7b" ++ toString td.id ++ ":" ++ toString td.group ++ "\x7d"

/-- Fallback placeholder token when the tag index is at or past the list end. -/
def fallbackToken (idx : Int) : String :=
  "\x7b" ++ toString idx ++ ":1\x7d"

/-- Embedding of commitWord (dataManager.ts lines 139-167).  A set negative
wordTagIndex other than -1 passes the length test but indexes past the array
start in JavaScript, so reading .id of undefined raises a TypeError; that
fault is the error outcome. -/
def commitWord (st : DecState) : Except Unit DecState :=
  let text1 :=
    match st.wordStr with
    | some s => st.currentFullText ++ s
    | none => st.currentFullText
  let tagPart : Except Unit String :=
    if st.wordTagIndex = -1 then .ok ""
    else if st.wordTagIndex < (st.currentLabelTags.length : Int) then
      if 0 ≤ st.wordTagIndex then
        match st.currentLabelTags.get? st.wordTagIndex.toNat with
        | some td => .ok (tagToken td)
        | none => .error ()
      else .error ()
    else .ok (fallbackToken st.wordTagIndex)
  match tagPart with
  | .error _ => .error ()
  | .ok tagStr =>
    let evStr :=
      match st.wordEventID with
      | none => ""
      | some e =>
        if e = 1 then "{n}"
        else if e = 3 then "{r}"
        else if e = 4 then "{f}"
        else if e = 0 ∨ e = 2 ∨ 5 ≤ e then ""
        else "{n}"
    .ok { st with
          currentFullText := text1 ++ tagStr ++ evStr
          wordStr := none
          wordEventID := none
          wordTagIndex := -1 }

/-- Field reset performed by resetLabelState (dataManager.ts lines 169-179). -/
def resetLabelState (st : DecState) : DecState :=
  { st with
    currentFullText := ""
    wordStr := none
    wordEventID := none
    wordTagIndex := -1
    currentLabelTags := []
    inTagData := false
    inWordData := false
    tempTagIndexValue := -1
    tempGroupIDValue := 1 }

/-- Flush of trimmed.replace of the leading list-item dash: one leading
dash-space pair is removed from the trimmed line. -/
def cleanItemMark (trimmed : String) : String :=
  if jsStartsWith trimmed "- " then jsDrop trimmed 2 else trimmed

/-- Tag-list push performed when a pending tag entry is flushed. -/
def flushTagEntry (st : DecState) : DecState :=
  if st.tempTagIndexValue ≠ -1 then
    { st with
      currentLabelTags := st.currentLabelTags ++ [⟨st.tempTagIndexValue, st.tempGroupIDValue⟩]
      tempTagIndexValue := -1
      tempGroupIDValue := 1 }
  else st

/-- Label flush done on a labelName line and at end of input: the accumulated
text is stored under the lowercased label when both are nonempty. -/
def flushLabel (st : DecState) : List (String × String) :=
  if st.currentLabel ≠ "" ∧ st.currentFullText ≠ "" then
    setAssoc st.labelMap (jsToLower st.currentLabel) st.currentFullText
  else st.labelMap

/-- One iteration of parseMessageAsset's line loop (dataManager.ts lines
181-264).  The labelName re-dispatch branches inside the tag-data and
word-data states (lines 216-219 and 241-243) are unreachable in the source:
the labelName test at line 193 is checked first, so they are not modelled. -/
def stepLine (st : DecState) (rawLine : String) : Except Unit DecState :=
  let trimmed := jsTrim rawLine
  let isNewItem := jsStartsWith trimmed "-"
  let cleanLine := cleanItemMark trimmed
  if jsStartsWith cleanLine "labelDataArray:" then
    .ok { st with inLabelArray := true }
  else if st.inLabelArray then
    if jsStartsWith cleanLine "labelName:" then
      match commitWord st with
      | .error e => .error e
      | .ok st1 =>
        let lm := flushLabel st1
        .ok (resetLabelState
              { st1 with labelMap := lm, currentLabel := jsTrim (jsDrop cleanLine 10) })
    else if jsStartsWith cleanLine "tagDataArray:" then
      .ok { st with inTagData := true, inWordData := false }
    else if st.inTagData then
      if jsStartsWith cleanLine "wordDataArray:" then
        .ok { flushTagEntry st with inTagData := false, inWordData := true }
      else
        let st1 := if isNewItem then flushTagEntry st else st
        if jsStartsWith cleanLine "tagIndex:" then
          match jsParseInt (jsTrim (jsDrop cleanLine 9)) with
          | some id => .ok { st1 with tempTagIndexValue := id }
          | none => .ok st1
        else if jsStartsWith cleanLine "groupID:" then
          match jsParseInt (jsTrim (jsDrop cleanLine 8)) with
          | some id => .ok { st1 with tempGroupIDValue := id }
          | none => .ok st1
        else .ok st1
    else if st.inWordData then
      match (if isNewItem then commitWord st else .ok st) with
      | .error e => .error e
      | .ok st1 =>
        if jsStartsWith cleanLine "str:" then
          let v := jsTrim (jsDrop cleanLine 4)
          let v := if jsStartsWith v "'" ∧ jsEndsWith v "'" then jsDropRight (jsDrop v 1) 1 else v
          .ok { st1 with wordStr := some v }
        else if jsStartsWith cleanLine "eventID:" then
          match jsParseInt (jsTrim (jsDrop cleanLine 8)) with
          | some id => .ok { st1 with wordEventID := some id }
          | none => .ok st1
        else if jsStartsWith cleanLine "tagIndex:" then
          match jsParseInt (jsTrim (jsDrop cleanLine 9)) with
          | some id => .ok { st1 with wordTagIndex := id }
          | none => .ok st1
        else .ok st1
    else .ok st
  else .ok st

/-- Folding the line loop over the input lines. -/
def decodeRun (st : DecState) : List String → Except Unit DecState
  | [] => .ok st
  | l :: ls =>
    match stepLine st l with
    | .error e => .error e
    | .ok st' => decodeRun st' ls

/-- Label-array scan of one asset dump (the loop body of parseMessageAsset
plus the final commit and flush at lines 265-268), producing the per-file
label-to-message map. -/
def parseMessageLines (lines : List String) : Except Unit (List (String × String)) :=
  match decodeRun initDecState lines with
  | .error e => .error e
  | .ok st =>
    match commitWord st with
    | .error e => .error e
    | .ok st1 => .ok (flushLabel st1)

/-- Short name computed at dataManager.ts line 117: a leading english_ and
then a leading ss_ are removed (case-sensitively, before lowercasing). -/
def shortNameOf (rawName : String) : String :=
  let s := if jsStartsWith rawName "english_" then jsDrop rawName 8 else rawName
  if jsStartsWith s "ss_" then jsDrop s 3 else s

/-- Guarded decode of one asset file: files without the labelDataArray marker
are skipped (line 114), and a scan fault (caught at line 273) also yields no
map. -/
def decodeAsset (lines : List String) : Option (List (String × String)) :=
  if lines.any (fun l => jsIncludes l "labelDataArray") then
    match parseMessageLines lines with
    | .ok m => some m
    | .error _ => none
  else none

/-- The message store: lowercased file key to per-file label map. -/
def MessageStore : Type := List (String × List (String × String))

/-- Embedding of parseMessageAsset's effect on the message store: on a
successful decode the same label map is stored under the lowercased raw name
and the lowercased short name (lines 270-271), otherwise the store is
unchanged. -/
def parseMessageAsset (store : MessageStore) (fileName : String) (lines : List String) :
    MessageStore :=
  match decodeAsset lines with
  | some m =>
    setAssoc (setAssoc store (jsToLower fileName) m) (jsToLower (shortNameOf fileName)) m
  | none => store

/-- Loading a list of asset files in order into an empty store (the message
part of loadGameAssets). -/
def loadMessages (corpus : List (String × List String)) : MessageStore :=
  corpus.foldl (fun s f => parseMessageAsset s f.1 f.2) []

/-- Embedding of DataManager.getMessage (dataManager.ts lines 323-331). -/
def getMessage (store : MessageStore) (fileName label : String) : Option String :=
  match getAssoc store (jsToLower fileName) with
  | some fileData => getAssoc fileData (jsToLower label)
  | none => none

/-! ## Command-invocation parsing primitives -/

/-- Character class A-Z plus underscore, the head class of the command-name
regular expressions. -/
def isUpperUnd (c : Char) : Bool :=
  ('A' ≤ c && c ≤ 'Z') || c = '_'

/-- Character class A-Z, 0-9 plus underscore, the tail class of the
command-name regular expressions. -/
def isUpperDigitUnd (c : Char) : Bool :=
  isUpperUnd c || c.isDigit

/-- Word character class of the backslash-w regular-expression atom. -/
def isWordChar (c : Char) : Bool :=
  c.isAlpha || c.isDigit || c = '_'

/-- Longest prefix of cs ending just before the last occurrence of c, or none
when c does not occur: this is what a greedy dot-star capture followed by a
literal c matches. -/
def chopAfterLast (c : Char) (cs : List Char) : Option (List Char) :=
  match cs with
  | [] => none
  | x :: rest =>
    match chopAfterLast c rest with
    | some r => some (x :: r)
    | none => if x = c then some [] else none

/-- Embedding of the anchored writer-line pattern of findWriterCommand and
isWriter: optional leading whitespace, a command name, optional whitespace, an
opening parenthesis, then a greedy capture up to the last closing parenthesis
on the line.  Returns the command name and the captured argument text. -/
def lineInvocation (line : String) : Option (String × String) :=
  match line.toList.dropWhile jsIsSpace with
  | [] => none
  | c :: rest =>
    if isUpperUnd c then
      let nameTail := rest.takeWhile isUpperDigitUnd
      match (rest.drop nameTail.length).dropWhile jsIsSpace with
      | '(' :: body =>
        match chopAfterLast ')' body with
        | some argsCs => some (String.mk (c :: nameTail), String.mk argsCs)
        | none => none
      | _ => none
    else none

/-- Embedding of String.prototype.split with a comma separator. -/
def jsSplitComma : List Char → List (List Char)
  | [] => [[]]
  | c :: rest =>
    if c = ',' then [] :: jsSplitComma rest
    else
      match jsSplitComma rest with
      | p :: ps => (c :: p) :: ps
      | [] => [[c]]

/-- The tracer's naive argument splitter: argsStr.split(',').map(trim), used
at extension.ts line 275 and traceProvider.ts line 80. -/
def splitCommaTrim (s : String) : List String :=
  (jsSplitComma s.toList).map (fun p => jsTrim (String.mk p))

/-- The shared full-argument-list parser parseArgs (completionProvider.ts
lines 186-223), processing the character list from the argument start: a
quote toggles string state, parentheses track depth outside strings, a
depth-zero comma outside a string ends one argument, a depth-zero closing
parenthesis outside a string ends the list; at end of line a nonempty
remainder is pushed. -/
def parseArgsAux : List Char → Bool → Nat → List Char → List String
  | [], _, _, cur => if cur.isEmpty then [] else [jsTrim (String.mk cur)]
  | c :: rest, inString, depth, cur =>
    if c = '\'' then parseArgsAux rest (!inString) depth (cur ++ [c])
    else if inString then parseArgsAux rest inString depth (cur ++ [c])
    else if c = '(' then parseArgsAux rest inString (depth + 1) (cur ++ [c])
    else if c = ')' then
      if 0 < depth then parseArgsAux rest inString (depth - 1) (cur ++ [c])
      else [jsTrim (String.mk cur)]
    else if c = ',' ∧ depth = 0 then jsTrim (String.mk cur) :: parseArgsAux rest inString 0 []
    else parseArgsAux rest inString depth (cur ++ [c])

/-- parseArgs(lineText, argStart). -/
def parseArgs (lineText : String) (argStart : Nat) : List String :=
  parseArgsAux (lineText.toList.drop argStart) false 0 []

/-! ## PlaceholderTracer (src/extension.ts, ScriptTracer) -/

/-- Schema entry consumed by the tracer: hints.json parameter with its index
and semantic type tags (HintParam.Index, HintParam.Type). -/
structure HintParam where
  Index : Nat
  Type' : List String
deriving DecidableEq, Repr

/-- Hint record for one command (HintConfig.Params). -/
structure HintConfig where
  Params : List HintParam
deriving DecidableEq, Repr

/-- The hint table DataManager.hints, as a lookup function. -/
def Hints : Type := String → Option HintConfig

/-- Embedding of ScriptTracer.GROUP_TO_TYPE with its default: group 1 maps to
TagIndex, group 2 to NumberIndex, anything else falls back to TagIndex. -/
def groupToType (groupID : Int) : String :=
  if groupID = 1 then "TagIndex" else if groupID = 2 then "NumberIndex" else "TagIndex"

/-- Embedding of ScriptTracer.findWriterCommand (extension.ts lines 269-293):
parse the line with the anchored writer pattern, split the captured argument
text naively on commas, and return the command name when some hint parameter
carries the target type and its argument parses to the target index. -/
def findWriterCommand (hints : Hints) (line : String) (targetIndex : Int)
    (targetType : String) : Option String :=
  match lineInvocation line with
  | none => none
  | some (cmdName, argsStr) =>
    let args := splitCommaTrim argsStr
    match hints cmdName with
    | none => none
    | some hint =>
      if hint.Params.any (fun p =>
          p.Type'.contains targetType &&
          decide (jsParseIntOpt (args.get? p.Index) = some targetIndex)) then
        some cmdName
      else none

/-- Embedding of the label-definition boundary pattern Label-whitespace-at-name
used by the tracer and the indexer. -/
def labelDefMatch (line : String) : Option String :=
  match line.toList with
  | 'L' :: 'a' :: 'b' :: 'e' :: 'l' :: rest =>
    let ws := rest.takeWhile jsIsSpace
    if ws.isEmpty then none
    else
      match rest.drop ws.length with
      | '@' :: rest2 =>
        let w := rest2.takeWhile isWordChar
        if w.isEmpty then none else some (String.mk w)
      | _ => none
  | _ => none

/-- Outcome of scanning one frame's lines upward. -/
inductive ScanOutcome where
  | found (cmd : String)
  | boundary (label : String)
  | exhausted
deriving DecidableEq, Repr

/-- Upward scan of one frame (the inner for loop of resolveTagIndex,
extension.ts lines 238-256): lower line indices are inspected one at a time
starting just above the frame line; a writer match ends the trace, a
label-definition line ends the frame.  The scanned lines are also returned,
most recently scanned last in scanning order. -/
def scanFrame (hints : Hints) (tagIndex : Int) (targetType : String)
    (lines : List String) : Nat → ScanOutcome × List String
  | 0 => (.exhausted, [])
  | n + 1 =>
    let lineText := lines.getD n ""
    match findWriterCommand hints lineText tagIndex targetType with
    | some c => (.found c, [lineText])
    | none =>
      match labelDefMatch lineText with
      | some nm => (.boundary nm, [lineText])
      | none =>
        let r := scanFrame hints tagIndex targetType lines n
        (r.1, lineText :: r.2)

/-- Result of the bounded backward search, instrumented with the list of
scanned lines and the number of frames popped from the queue. -/
structure TraceOut where
  res : Except Unit (Option String)
  scanned : List String
  pops : Nat
deriving Repr

/-- Embedding of resolveTagIndex's while loop (extension.ts lines 231-257).
The fuel is the remaining step budget: the source checks steps against the
limit of 50 before each pop.  Opening an unreadable file, or starting the
upward scan past the end of the file's line array, raises in JavaScript and
is the error outcome; a visited boundary label abandons the frame, an
unvisited one enqueues one frame per caller. -/
def traceAux (corpus : String → Option (List String))
    (preds : String → List (String × Nat)) (hints : Hints)
    (tagIndex : Int) (targetType : String) :
    Nat → List (String × Nat) → List String → TraceOut
  | 0, _, _ => ⟨.ok none, [], 0⟩
  | _ + 1, [], _ => ⟨.ok none, [], 0⟩
  | fuel + 1, (file, line) :: rest, visited =>
    match corpus file with
    | none => ⟨.error (), [], 1⟩
    | some lines =>
      if 0 < line ∧ lines.length < line then ⟨.error (), [], 1⟩
      else
        let s := scanFrame hints tagIndex targetType lines line
        match s.1 with
        | .found c => ⟨.ok (some c), s.2, 1⟩
        | .exhausted =>
          let t := traceAux corpus preds hints tagIndex targetType fuel rest visited
          ⟨t.res, s.2 ++ t.scanned, t.pops + 1⟩
        | .boundary nm =>
          if visited.contains nm then
            let t := traceAux corpus preds hints tagIndex targetType fuel rest visited
            ⟨t.res, s.2 ++ t.scanned, t.pops + 1⟩
          else
            let t := traceAux corpus preds hints tagIndex targetType fuel
              (rest ++ preds nm) (nm :: visited)
            ⟨t.res, s.2 ++ t.scanned, t.pops + 1⟩

/-- Embedding of ScriptTracer.resolveTagIndex (extension.ts lines 227-267):
the target slot type comes from the group table, the frontier starts with the
single origin frame, the visited set is empty and the step budget is 50. -/
def resolveTagIndex (corpus : String → Option (List String))
    (preds : String → List (String × Nat)) (hints : Hints)
    (startFile : String) (startLine : Nat) (tagIndex groupID : Int) : TraceOut :=
  traceAux corpus preds hints tagIndex (groupToType groupID) 50 [(startFile, startLine)] []

/-! ## Command-context parsers (completionProvider.ts 139-184, hoverProvider.ts 136-172) -/

/-- Result record of getCommandContext (name, argument-list start, argument
index); the lineText field of the source record is the input line itself and
is omitted. -/
structure CommandContext where
  name : String
  argStart : Nat
  argIndex : Nat
deriving DecidableEq, Repr

/-- Match attempt of the command-opening pattern name-whitespace-parenthesis
at the head of cs; returns the name and the combined length of the name tail
and the whitespace run (the whole match is that plus two). -/
def cmdMatchAt (cs : List Char) : Option (String × Nat) :=
  match cs with
  | [] => none
  | c :: rest =>
    if isUpperUnd c then
      let nameTail := rest.takeWhile isUpperDigitUnd
      let ws := (rest.drop nameTail.length).takeWhile jsIsSpace
      match (rest.drop nameTail.length).drop ws.length with
      | '(' :: _ => some (String.mk (c :: nameTail), nameTail.length + ws.length)
      | _ => none
    else none

/-- Scanning loop for the global command-opening pattern; the fuel is an
upper bound on the remaining characters, so the recursion is structural. -/
def cmdMatchesAux : Nat → List Char → Nat → List (String × Nat)
  | 0, _, _ => []
  | fuel + 1, cs, base =>
    match cs with
    | [] => []
    | c :: rest =>
      match cmdMatchAt (c :: rest) with
      | some (nm, inner) =>
        (nm, base + inner + 2) :: cmdMatchesAux fuel ((c :: rest).drop (inner + 2)) (base + inner + 2)
      | none => cmdMatchesAux fuel rest (base + 1)

/-- All matches of the global command-opening pattern, left to right, each as
(name, argStart); scanning resumes after each match as the g flag does. -/
def cmdMatches (cs : List Char) (base : Nat) : List (String × Nat) :=
  cmdMatchesAux cs.length cs base

/-- Per-character state of the completion provider's argument scan: string
toggle, parenthesis depth, argument index, and whether the scanned argument
list has been closed. -/
structure CtxScanState where
  inString : Bool
  depth : Nat
  argIndex : Nat
  closed : Bool
deriving DecidableEq, Repr

/-- One character of the completion provider's scan (completionProvider.ts
lines 167-179). -/
def ctxStep (s : CtxScanState) (c : Char) : CtxScanState :=
  if c = '\'' then { s with inString := !s.inString }
  else if s.inString then s
  else if c = '(' then { s with depth := s.depth + 1 }
  else if c = ')' then
    if 0 < s.depth then { s with depth := s.depth - 1 } else { s with closed := true }
  else if c = ',' ∧ s.depth = 0 then { s with argIndex := s.argIndex + 1 }
  else s

/-- State after scanning a character run from the fresh state. -/
def ctxScan (cs : List Char) : CtxScanState :=
  cs.foldl ctxStep ⟨false, 0, 0, false⟩

namespace CompletionProvider

/-- Embedding of the completion provider's getCommandContext: candidates are
taken left to right, and the first whose argument list is not closed when the
scan reaches the cursor is returned.  The inner loop reaches the cursor index
only when it is strictly inside the line, so positions at or past the line
end match no candidate. -/
def getCommandContext (line : String) (pos : Nat) : Option CommandContext :=
  if pos < line.length then
    match (cmdMatches line.toList 0).find? (fun m =>
        m.2 ≤ pos && !(ctxScan ((line.toList.drop m.2).take (pos - m.2))).closed) with
    | some (nm, start) =>
      some ⟨nm, start, (ctxScan ((line.toList.drop start).take (pos - start))).argIndex⟩
    | none => none
  else none

end CompletionProvider

namespace HoverProvider

/-- Embedding of the hover provider's getCommandContext: the last command
opening at or before the cursor wins, and the argument index is the plain
count of commas between the argument start and the cursor. -/
def getCommandContext (line : String) (pos : Nat) : Option CommandContext :=
  match ((cmdMatches line.toList 0).filter (fun m => m.2 ≤ pos)).getLast? with
  | some (nm, start) =>
    some ⟨nm, start, ((line.toList.drop start).take (pos - start)).count ','⟩
  | none => none

end HoverProvider

/-! ## ScriptIndexer (src/indexer.ts) -/

/-- Source location (file, zero-based line, zero-based column). -/
structure Loc where
  file : String
  line : Nat
  col : Nat
deriving DecidableEq, Repr

/-- The two tables of ScriptIndexer. -/
structure ScriptIndex where
  labelDefinitions : List (String × Loc)
  jumpReferences : List (String × List Loc)
deriving DecidableEq, Repr

/-- Reference registration (indexer.ts lines 44-47): create an empty caller
list on first sight, then push the new location at the end. -/
def appendRef (m : List (String × List Loc)) (k : String) (v : Loc) :
    List (String × List Loc) :=
  match getAssoc m k with
  | some l => setAssoc m k (l ++ [v])
  | none => setAssoc m k [v]

/-- Head match of the call-site pattern Jump-or-Call, whitespace, at, name;
returns the target label and the combined length of the whitespace run and
the name (the whole match is that plus five). -/
def jumpMatchAt (cs : List Char) : Option (String × Nat) :=
  match cs with
  | 'J' :: 'u' :: 'm' :: 'p' :: r =>
    let ws := r.takeWhile jsIsSpace
    if ws.isEmpty then none
    else
      match r.drop ws.length with
      | '@' :: r2 =>
        let w := r2.takeWhile isWordChar
        if w.isEmpty then none else some (String.mk w, ws.length + w.length)
      | _ => none
  | 'C' :: 'a' :: 'l' :: 'l' :: r =>
    let ws := r.takeWhile jsIsSpace
    if ws.isEmpty then none
    else
      match r.drop ws.length with
      | '@' :: r2 =>
        let w := r2.takeWhile isWordChar
        if w.isEmpty then none else some (String.mk w, ws.length + w.length)
      | _ => none
  | _ => none

/-- Scanning loop for the call-site pattern with a structural character-count
fuel. -/
def scanJumpsAux : Nat → List Char → Nat → List (String × Nat)
  | 0, _, _ => []
  | fuel + 1, cs, base =>
    match cs with
    | [] => []
    | c :: rest =>
      match jumpMatchAt (c :: rest) with
      | some (nm, inner) =>
        (nm, base) :: scanJumpsAux fuel ((c :: rest).drop (inner + 5)) (base + inner + 5)
      | none => scanJumpsAux fuel rest (base + 1)

/-- All call-site matches on one line, left to right with resumption after
each match, each as (target label, match start column).  The whitespace atom
of the source pattern can in principle span a line break; matches are
modelled within single lines, which is where they occur in this corpus. -/
def scanJumps (cs : List Char) (base : Nat) : List (String × Nat) :=
  scanJumpsAux cs.length cs base

/-- Label-definition events of one file in registration order. -/
def defEventsOfFile (file : String) (lines : List String) : List (String × Loc) :=
  lines.enum.filterMap (fun p => (labelDefMatch p.2).map (fun nm => (nm, ⟨file, p.1, 0⟩)))

/-- Call-site events of one file in registration order. -/
def refEventsOfFile (file : String) (lines : List String) : List (String × Loc) :=
  lines.enum.flatMap (fun p =>
    (scanJumps p.2.toList 0).map (fun m => (m.1, ⟨file, p.1, m.2⟩)))

/-- Embedding of ScriptIndexer.parseFile (indexer.ts lines 22-52): the first
while loop registers every label definition of the file, the second registers
every call site. -/
def parseFile (idx : ScriptIndex) (file : String) (lines : List String) : ScriptIndex :=
  let idx1 := (defEventsOfFile file lines).foldl
    (fun a e => { a with labelDefinitions := setAssoc a.labelDefinitions e.1 e.2 }) idx
  (refEventsOfFile file lines).foldl
    (fun a e => { a with jumpReferences := appendRef a.jumpReferences e.1 e.2 }) idx1

/-- Embedding of ScriptIndexer.refreshIndex: both tables are cleared, then
every file is parsed in order. -/
def refreshIndex (corpus : List (String × List String)) : ScriptIndex :=
  corpus.foldl (fun a f => parseFile a f.1 f.2) ⟨[], []⟩

/-- Embedding of ScriptIndexer.getPredecessors (indexer.ts lines 54-56). -/
def getPredecessors (idx : ScriptIndex) (labelName : String) : List Loc :=
  (getAssoc idx.jumpReferences labelName).getD []

/-- Definition lookup on the labelDefinitions table built by parseFile (the
spec's ScriptIndex.getDefinition; the extension reads this private map for
navigation). -/
def getDefinition (idx : ScriptIndex) (labelName : String) : Option Loc :=
  getAssoc idx.labelDefinitions labelName

deriving instance DecidableEq for Except

/-! ## Commit-rule specification functions (stated from the spec wording, for
comparison with commitWord) -/

/-- Literal part of the commit rule: the literal string if present. -/
def litPartSpec (st : DecState) : String :=
  st.wordStr.getD ""

/-- Placeholder part of the commit rule, for an unset (-1) or nonnegative tag
index: the tag-list entry at the index when in range, else the fallback. -/
def tagPartSpec (st : DecState) : String :=
  if st.wordTagIndex = -1 then ""
  else
    match st.currentLabelTags.get? st.wordTagIndex.toNat with
    | some td => tagToken td
    | none => fallbackToken st.wordTagIndex

/-- Macro part of the commit rule as the code implements it: 1, 3 and 4 give
the three tokens, 0, 2 and at least 5 give nothing, any other set value gives
the soft break, and an absent eventId gives nothing. -/
def evPartSpec (st : DecState) : String :=
  match st.wordEventID with
  | none => ""
  | some e =>
    if e = 1 then "{n}"
    else if e = 3 then "{r}"
    else if e = 4 then "{f}"
    else if e = 0 ∨ e = 2 ∨ 5 ≤ e then ""
    else "{n}"

/-- Asset dump with the single word str Hi, eventID 1 under label L1. -/
def assetHiN : List String :=
  ["labelDataArray:", "- labelName: L1", "  tagDataArray:", "  wordDataArray:",
   "  - str: 'Hi'", "    eventID: 1"]

/-- Asset dump with the single word str Hi and no eventID field. -/
def assetHiNoEvent : List String :=
  ["labelDataArray:", "- labelName: L1", "  tagDataArray:", "  wordDataArray:",
   "  - str: 'Hi'"]

/-- C1 (amended): for every pending word whose tag index is unset (-1) or
nonnegative, committing appends, in this fixed order, the literal string if
present, then the placeholder token (the tag-list entry at the index rendered
as id:group in braces when in range, else the fallback), then the macro token
derived from eventId (1, 3 and 4 give the three tokens; 0, 2 and values of at
least 5 give nothing; any other set value defaults to the soft break; an
absent eventId appends nothing), and resets the pending word.  One word with
str Hi and eventID 1 decodes to the text Hi followed by the soft-break
token. -/
theorem commitWord_commit_rule :
    (∀ st : DecState, -1 ≤ st.wordTagIndex →
      commitWord st = .ok { st with
        currentFullText :=
          st.currentFullText ++ litPartSpec st ++ tagPartSpec st ++ evPartSpec st
        wordStr := none
        wordEventID := none
        wordTagIndex := -1 })
    ∧ parseMessageLines assetHiN = .ok [("l1", "Hi{n}")] := by
  constructor
  · intro st h
    by_cases h1 : st.wordTagIndex = -1
    · cases hs : st.wordStr <;>
        simp [commitWord, litPartSpec, tagPartSpec, evPartSpec, h1, hs, String.append_assoc]
    · have h0 : 0 ≤ st.wordTagIndex := by omega
      by_cases h2 : st.wordTagIndex < (st.currentLabelTags.length : Int)
      · have hlt : st.wordTagIndex.toNat < st.currentLabelTags.length := by omega
        cases htd : st.currentLabelTags[st.wordTagIndex.toNat]? with
        | none =>
          rw [List.getElem?_eq_none_iff] at htd
          omega
        | some td =>
          cases hs : st.wordStr <;>
            simp [commitWord, litPartSpec, tagPartSpec, evPartSpec, h1, h0, h2, htd, hs,
              String.append_assoc]
      · have hnone : st.currentLabelTags[st.wordTagIndex.toNat]? = none :=
          List.getElem?_eq_none (by omega)
        cases hs : st.wordStr <;>
          simp [commitWord, litPartSpec, tagPartSpec, evPartSpec, h1, h0, h2, hnone, hs,
            String.append_assoc]
  · rfl

/-- C1 witness: the commit rule applied to the pending word str Hi, eventID 1
appends exactly the literal followed by the soft-break token. -/
theorem commitWord_commit_rule_witness :
    commitWord { initDecState with wordStr := some "Hi", wordEventID := some 1 } =
      .ok { initDecState with currentFullText := "Hi{n}" } := by
  have h := commitWord_commit_rule.1
    { initDecState with wordStr := some "Hi", wordEventID := some 1 } (by decide)
  rw [h]
  decide

/-- C1 counterexample: a pending literal word with an absent eventId commits
with no macro token appended — the single word str Hi with no eventID field
decodes to Hi, not to Hi followed by the soft break as the claim's
default-on-absence clause requires. -/
theorem commitWord_absent_eventId_counterexample :
    parseMessageLines assetHiNoEvent = .ok [("l1", "Hi")] ∧ "Hi" ≠ "Hi{n}" :=
  ⟨rfl, by decide⟩

/-- C10: a successful commit resets the pending-word state (literal, eventId
and tag index), so a commit performed immediately after another commit is the
identity: it appends nothing and leaves the accumulated text and all other
state unchanged. -/
theorem commitWord_idempotent (st st' : DecState) (h : commitWord st = .ok st') :
    commitWord st' = .ok st' := by
  have hfields : st'.wordStr = none ∧ st'.wordEventID = none ∧ st'.wordTagIndex = -1 := by
    obtain ⟨b1, b2, b3, b4, b5, b6, b7, b8, b9, b10, b11, b12⟩ := st'
    cases hs : st.wordStr <;>
      by_cases h1 : st.wordTagIndex = -1 <;>
      by_cases h2 : st.wordTagIndex < (st.currentLabelTags.length : Int) <;>
      by_cases h0 : 0 ≤ st.wordTagIndex <;>
      cases htd : st.currentLabelTags[st.wordTagIndex.toNat]? <;>
      simp_all [commitWord]
  obtain ⟨f1, f2, f3⟩ := hfields
  obtain ⟨a1, a2, a3, a4, a5, a6, a7, a8, a9, a10, a11, a12⟩ := st'
  simp only at f1 f2 f3
  subst f1 f2 f3
  simp [commitWord]

/-- C10 witness: the end-of-input commit after the commit of the Hi word
changes nothing. -/
theorem commitWord_idempotent_witness :
    commitWord { initDecState with currentFullText := "Hi{n}" } =
      .ok { initDecState with currentFullText := "Hi{n}" } :=
  commitWord_idempotent
    { initDecState with wordStr := some "Hi", wordEventID := some 1 }
    { initDecState with currentFullText := "Hi{n}" } (by decide)

/-- File f claims storage key when it decodes successfully and the key is one
of its two lowercased store keys. -/
def claimsKey (key : String) (f : String × List String) : Bool :=
  (decodeAsset f.2).isSome &&
    (key == jsToLower f.1 || key == jsToLower (shortNameOf f.1))

/-- Specification of the store contents: the per-key value is the decode of
the last file in corpus order that claims the key, computed from that file's
lines alone. -/
def lastClaimant (corpus : List (String × List String)) (key : String) :
    Option (List (String × String)) :=
  match corpus.reverse.find? (claimsKey key) with
  | some f => decodeAsset f.2
  | none => none

/-- Fold characterization of the message-store load: each key holds the
decode of the last claiming file, and keys claimed by no file keep their
prior binding. -/
theorem loadMessages_foldAux (corpus : List (String × List String)) (key : String) :
    ∀ store : MessageStore,
      getAssoc (corpus.foldl (fun s f => parseMessageAsset s f.1 f.2) store) key =
        match corpus.reverse.find? (claimsKey key) with
        | some f => decodeAsset f.2
        | none => getAssoc store key := by
  induction corpus with
  | nil => intro store; rfl
  | cons f rest ih =>
    intro store
    rw [List.foldl_cons, ih, List.reverse_cons, List.find?_append]
    cases hr : rest.reverse.find? (claimsKey key) with
    | some g => simp [Option.or]
    | none =>
      simp only [Option.or, List.find?]
      by_cases hp : claimsKey key f
      · rw [hp]
        simp only [claimsKey, Bool.and_eq_true, Bool.or_eq_true, beq_iff_eq,
          Option.isSome_iff_exists] at hp
        obtain ⟨⟨m, hm⟩, hkey⟩ := hp
        simp only [parseMessageAsset, hm]
        rcases eq_or_ne (jsToLower (shortNameOf f.1)) key with hsk | hsk
        · rw [hsk, getAssoc_setAssoc_same]
        · rcases hkey with hk | hk
          · rw [getAssoc_setAssoc_other _ _ _ _ (fun hh => hsk hh.symm), hk,
              getAssoc_setAssoc_same]
          · exact absurd hk.symm hsk
      · rw [Bool.not_eq_true] at hp
        rw [hp]
        simp only [parseMessageAsset]
        cases hm : decodeAsset f.2 with
        | none => rfl
        | some m =>
          simp only [claimsKey, hm, Option.isSome_some, Bool.true_and,
            Bool.or_eq_false_iff, beq_eq_false_iff_ne, ne_eq] at hp
          rw [getAssoc_setAssoc_other _ _ _ _ hp.2, getAssoc_setAssoc_other _ _ _ _ hp.1]

/-- C8: decoding is deterministic and stateless across calls — after loading
any corpus, the label-to-message map stored under any key is exactly the pure
decode of the last file claiming that key, a function of that single file's
text alone; hence identical input text always produces identical mappings and
decoding one file never alters the mapping produced for another. -/
theorem loadMessages_independent :
    ∀ (corpus : List (String × List String)) (key : String),
      getAssoc (loadMessages corpus) key = lastClaimant corpus key := by
  intro corpus key
  refine (loadMessages_foldAux corpus key []).trans ?_
  unfold lastClaimant
  cases corpus.reverse.find? (claimsKey key) <;> rfl

/-- C9: after a successful decode the resulting label map is stored under the
lowercased full file name and the lowercased short name (leading english_
then ss_ removed), getMessage answers identically through either file-name
form, and both the file and the label arguments of getMessage are compared
case-insensitively. -/
theorem parseMessageAsset_two_keys :
    (∀ (store : MessageStore) (fileName : String) (lines : List String)
        (m : List (String × String)), decodeAsset lines = some m →
      getAssoc (parseMessageAsset store fileName lines) (jsToLower fileName) = some m ∧
      getAssoc (parseMessageAsset store fileName lines)
        (jsToLower (shortNameOf fileName)) = some m ∧
      ∀ label : String,
        getMessage (parseMessageAsset store fileName lines) fileName label =
          getAssoc m (jsToLower label) ∧
        getMessage (parseMessageAsset store fileName lines) (shortNameOf fileName) label =
          getAssoc m (jsToLower label))
    ∧ (∀ (store : MessageStore) (f l f' l' : String),
        jsToLower f = jsToLower f' → jsToLower l = jsToLower l' →
        getMessage store f l = getMessage store f' l') := by
  constructor
  · intro store fileName lines m hm
    have hraw : getAssoc (parseMessageAsset store fileName lines) (jsToLower fileName)
        = some m := by
      rw [parseMessageAsset, hm]
      rcases eq_or_ne (jsToLower (shortNameOf fileName)) (jsToLower fileName) with he | he
      · rw [he, getAssoc_setAssoc_same]
      · rw [getAssoc_setAssoc_other _ _ _ _ (fun hh => he hh.symm), getAssoc_setAssoc_same]
    have hshort : getAssoc (parseMessageAsset store fileName lines)
        (jsToLower (shortNameOf fileName)) = some m := by
      rw [parseMessageAsset, hm, getAssoc_setAssoc_same]
    refine ⟨hraw, hshort, fun label => ⟨?_, ?_⟩⟩
    · rw [getMessage, hraw]
    · rw [getMessage, hshort]
  · intro store f l f' l' hf hl
    rw [getMessage, getMessage, hf, hl]

/-- C9 witness: the file english_ss_foo is retrievable as english_ss_foo and
as foo, in any letter case, with the same decoded message map. -/
theorem parseMessageAsset_two_keys_witness :
    getAssoc (parseMessageAsset [] "english_ss_foo" assetHiN) "english_ss_foo" =
        some [("l1", "Hi{n}")] ∧
    getAssoc (parseMessageAsset [] "english_ss_foo" assetHiN) "foo" =
        some [("l1", "Hi{n}")] ∧
    getMessage (parseMessageAsset [] "english_ss_foo" assetHiN) "English_SS_Foo" "L1" =
      getMessage (parseMessageAsset [] "english_ss_foo" assetHiN) "foo" "l1" := by
  have h := parseMessageAsset_two_keys.1 [] "english_ss_foo" assetHiN [("l1", "Hi{n}")] rfl
  have hci := parseMessageAsset_two_keys.2 (parseMessageAsset [] "english_ss_foo" assetHiN)
    "English_SS_Foo" "L1" "english_ss_foo" "l1" (by decide) (by decide)
  refine ⟨h.1, h.2.1, ?_⟩
  rw [hci]
  have h1 := (h.2.2 "l1").1
  have h2 := (h.2.2 "l1").2
  rw [h1]
  exact h2.symm

/-- Characters that neither toggle the string state nor change parenthesis
depth in the shared parser. -/
def isPlainArgChar (c : Char) : Bool :=
  c ≠ '\'' && c ≠ '(' && c ≠ ')'

/-- A comma split always produces at least one piece. -/
theorem jsSplitComma_cons (cs : List Char) : ∃ p ps, jsSplitComma cs = p :: ps := by
  induction cs with
  | nil => exact ⟨[], [], rfl⟩
  | cons c rest ih =>
    obtain ⟨p, ps, hps⟩ := ih
    by_cases hc : c = ','
    · exact ⟨[], jsSplitComma rest, by simp [jsSplitComma, hc]⟩
    · exact ⟨c :: p, ps, by simp [jsSplitComma, hc, hps]⟩

/-- On argument text free of quotes and parentheses, the shared parser run up
to the closing parenthesis produces exactly the trimmed comma split. -/
theorem parseArgsAux_plain :
    ∀ (s t cur : List Char), (∀ c ∈ s, isPlainArgChar c) →
      parseArgsAux (s ++ ')' :: t) false 0 cur =
        jsTrim (String.mk (cur ++ (jsSplitComma s).headI)) ::
          ((jsSplitComma s).tail.map (fun q => jsTrim (String.mk q))) := by
  intro s
  induction s with
  | nil =>
    intro t cur _
    simp [parseArgsAux, jsSplitComma]
  | cons c s' ih =>
    intro t cur hplain
    have hc : isPlainArgChar c := hplain c (List.mem_cons_self c s')
    have hplain' : ∀ x ∈ s', isPlainArgChar x := fun x hx => hplain x (List.mem_cons_of_mem c hx)
    have hq : c ≠ '\'' := by rintro rfl; simp [isPlainArgChar] at hc
    have hp : c ≠ '(' := by rintro rfl; simp [isPlainArgChar] at hc
    have hr : c ≠ ')' := by rintro rfl; simp [isPlainArgChar] at hc
    by_cases hcomma : c = ','
    · subst hcomma
      obtain ⟨p, ps, hps⟩ := jsSplitComma_cons s'
      rw [List.cons_append]
      rw [show parseArgsAux (',' :: (s' ++ ')' :: t)) false 0 cur =
          jsTrim (String.mk cur) :: parseArgsAux (s' ++ ')' :: t) false 0 [] from by
        simp [parseArgsAux, hq]]
      rw [ih t [] hplain', hps]
      simp [jsSplitComma, hps]
    · obtain ⟨p, ps, hps⟩ := jsSplitComma_cons s'
      rw [List.cons_append]
      rw [show parseArgsAux (c :: (s' ++ ')' :: t)) false 0 cur =
          parseArgsAux (s' ++ ')' :: t) false 0 (cur ++ [c]) from by
        simp [parseArgsAux, hq, hp, hr, hcomma]]
      rw [ih t (cur ++ [c]) hplain', hps]
      simp [jsSplitComma, hcomma, hps]

/-- C5 (amended): the tracer splits the captured argument text at every comma
(splitCommaTrim), ignoring quotes and nested parentheses, unlike the shared
parser; the two agree exactly on lines whose argument text contains no quote
or parenthesis characters, where the argument at any schema index is the same
substring the shared full-argument-list parser produces. -/
theorem tracer_split_agrees_parseArgs :
    ∀ (line argsStr : String) (argStart : Nat) (t : List Char),
      line.toList.drop argStart = argsStr.toList ++ ')' :: t →
      (∀ c ∈ argsStr.toList, isPlainArgChar c) →
      parseArgs line argStart = splitCommaTrim argsStr := by
  intro line argsStr argStart t hdecomp hplain
  rw [parseArgs, hdecomp, parseArgsAux_plain argsStr.toList t [] hplain]
  obtain ⟨p, ps, hps⟩ := jsSplitComma_cons argsStr.toList
  rw [splitCommaTrim]
  rw [hps]
  simp

/-- C5 witness: on the plain line SET_NAME with arguments 3 and 4, the
tracer's naive split and the shared parser agree. -/
theorem tracer_split_agrees_parseArgs_witness :
    parseArgs "SET_NAME(3, 4)" 9 = splitCommaTrim "3, 4" :=
  tracer_split_agrees_parseArgs "SET_NAME(3, 4)" "3, 4" 9 [] rfl (by decide)

/-- C5 counterexample: on a line with a comma inside a quoted argument, the
tracer's naive split yields a different argument at index 1 than the shared
parser, refuting the claim that the tracer uses the shared semantics. -/
theorem tracer_naive_split_counterexample :
    lineInvocation "CMD('a,b', 3)" = some ("CMD", "'a,b', 3") ∧
    splitCommaTrim "'a,b', 3" = ["'a", "b'", "3"] ∧
    parseArgs "CMD('a,b', 3)" 4 = ["'a,b'", "3"] ∧
    ["'a", "b'", "3"].get? 1 ≠ ["'a,b'", "3"].get? 1 :=
  ⟨rfl, rfl, rfl, by decide⟩

/-! ## Command-context contract (stated from the spec wording) -/

/-- Count of commas at parenthesis depth zero outside a single-quoted string,
the spec's argument-index rule. -/
def commasAtDepth0 : List Char → Bool → Nat → Nat
  | [], _, _ => 0
  | c :: rest, inStr, depth =>
    if c = '\'' then commasAtDepth0 rest (!inStr) depth
    else if inStr then commasAtDepth0 rest inStr depth
    else if c = '(' then commasAtDepth0 rest inStr (depth + 1)
    else if c = ')' then commasAtDepth0 rest inStr (depth - 1)
    else if c = ',' ∧ depth = 0 then 1 + commasAtDepth0 rest inStr depth
    else commasAtDepth0 rest inStr depth

/-- Whether a closing parenthesis at depth zero outside a string occurs, the
spec's already-closed-argument-list test. -/
def closedAt : List Char → Bool → Nat → Bool
  | [], _, _ => false
  | c :: rest, inStr, depth =>
    if c = '\'' then closedAt rest (!inStr) depth
    else if inStr then closedAt rest inStr depth
    else if c = '(' then closedAt rest inStr (depth + 1)
    else if c = ')' then decide (depth = 0) || closedAt rest inStr (depth - 1)
    else closedAt rest inStr depth

/-- The completion provider's per-character scan counts exactly the commas at
depth zero outside strings. -/
theorem ctxScan_foldl_argIndex :
    ∀ (cs : List Char) (s : CtxScanState),
      (cs.foldl ctxStep s).argIndex = s.argIndex + commasAtDepth0 cs s.inString s.depth := by
  intro cs
  induction cs with
  | nil => intro s; simp [commasAtDepth0]
  | cons c rest ih =>
    intro s
    rw [List.foldl_cons, ih]
    by_cases hq : c = '\''
    · simp [ctxStep, commasAtDepth0, hq]
    · by_cases hs : s.inString
      · simp [ctxStep, commasAtDepth0, hq, hs]
      · by_cases hp : c = '('
        · simp [ctxStep, commasAtDepth0, hq, hs, hp]
        · by_cases hr : c = ')'
          · by_cases hd : 0 < s.depth
            · have : ¬ s.depth = 0 := by omega
              simp [ctxStep, commasAtDepth0, hq, hs, hp, hr, hd]
            · have hd0 : s.depth = 0 := by omega
              simp [ctxStep, commasAtDepth0, hq, hs, hp, hr, hd, hd0]
          · by_cases hc : c = ',' ∧ s.depth = 0
            · simp [ctxStep, commasAtDepth0, hq, hs, hp, hr, hc]
              omega
            · simp [ctxStep, commasAtDepth0, hq, hs, hp, hr, hc]

/-- The completion provider's scan reports the list closed exactly when a
depth-zero closing parenthesis outside a string has occurred. -/
theorem ctxScan_foldl_closed :
    ∀ (cs : List Char) (s : CtxScanState),
      (cs.foldl ctxStep s).closed = (s.closed || closedAt cs s.inString s.depth) := by
  intro cs
  induction cs with
  | nil => intro s; simp [closedAt]
  | cons c rest ih =>
    intro s
    rw [List.foldl_cons, ih]
    by_cases hq : c = '\''
    · simp [ctxStep, closedAt, hq]
    · by_cases hs : s.inString
      · simp [ctxStep, closedAt, hq, hs]
      · by_cases hp : c = '('
        · simp [ctxStep, closedAt, hq, hs, hp]
        · by_cases hr : c = ')'
          · by_cases hd : 0 < s.depth
            · have : ¬ s.depth = 0 := by omega
              simp [ctxStep, closedAt, hq, hs, hp, hr, hd, this]
            · have hd0 : s.depth = 0 := by omega
              simp [ctxStep, closedAt, hq, hs, hp, hr, hd, hd0]
          · by_cases hc : c = ',' ∧ s.depth = 0
            · simp [ctxStep, closedAt, hq, hs, hp, hr, hc]
            · simp [ctxStep, closedAt, hq, hs, hp, hr, hc]

/-- C6 (amended): the completion provider's context parser only returns a
command whose argument list is still open at the cursor — closed lists are
treated as non-matches, so an outer call is found when an inner one has
closed, witnessed by the nested line OUT(IN(1),2) — and its reported argument
index counts exactly the commas at depth zero outside a single-quoted string;
among the still-open openings the leftmost is returned, and a cursor at or
past the end of the line yields no context.  The hover provider's variant
does not satisfy this contract (see the counterexample). -/
theorem getCommandContext_contract :
    (∀ (line : String) (pos : Nat) (ctx : CommandContext),
      CompletionProvider.getCommandContext line pos = some ctx →
        ctx.argStart ≤ pos ∧ pos < line.length ∧
        closedAt ((line.toList.drop ctx.argStart).take (pos - ctx.argStart)) false 0 = false ∧
        ctx.argIndex =
          commasAtDepth0 ((line.toList.drop ctx.argStart).take (pos - ctx.argStart)) false 0)
    ∧ CompletionProvider.getCommandContext "OUT(IN(1),2)" 10 = some ⟨"OUT", 4, 1⟩ := by
  constructor
  · intro line pos ctx h
    rw [CompletionProvider.getCommandContext] at h
    by_cases hpos : pos < line.length
    · rw [if_pos hpos] at h
      cases hf : (cmdMatches line.toList 0).find? (fun m =>
          m.2 ≤ pos && !(ctxScan ((line.toList.drop m.2).take (pos - m.2))).closed) with
      | none => rw [hf] at h; cases h
      | some m =>
        rw [hf] at h
        obtain ⟨nm, start⟩ := m
        have hpred := List.find?_some hf
        simp only [Bool.and_eq_true, decide_eq_true_eq, Bool.not_eq_true'] at hpred
        cases h
        refine ⟨hpred.1, hpos, ?_, ?_⟩
        · have hcl := ctxScan_foldl_closed ((line.toList.drop start).take (pos - start))
            ⟨false, 0, 0, false⟩
          rw [ctxScan] at hpred
          rw [hcl] at hpred
          simpa using hpred.2
        · have hai := ctxScan_foldl_argIndex ((line.toList.drop start).take (pos - start))
            ⟨false, 0, 0, false⟩
          rw [ctxScan, hai]
          simp
    · rw [if_neg hpos] at h; cases h
  · rfl

/-- C6 witness: at cursor 10 of the nested line the inner call is closed and
the outer OUT context is returned with argument index 1, which matches the
depth-aware comma count. -/
theorem getCommandContext_contract_witness :
    (4 : Nat) ≤ 10 ∧ (10 : Nat) < ("OUT(IN(1),2)" : String).length ∧
    closedAt ((("OUT(IN(1),2)" : String).toList.drop 4).take 6) false 0 = false ∧
    (1 : Nat) = commasAtDepth0 ((("OUT(IN(1),2)" : String).toList.drop 4).take 6) false 0 :=
  getCommandContext_contract.1 "OUT(IN(1),2)" 10 ⟨"OUT", 4, 1⟩ rfl

/-- C6 counterexample: the hover provider's context parser counts a comma
inside a single-quoted string (argument index 1 where the depth-aware count
is 0) and returns a command whose argument list is already closed before the
cursor, so the claimed contract fails for it. -/
theorem getCommandContext_hover_counterexample :
    (HoverProvider.getCommandContext "CMD('a,b')" 8 = some ⟨"CMD", 4, 1⟩ ∧
      commasAtDepth0 ((("CMD('a,b')" : String).toList.drop 4).take 4) false 0 = 0 ∧
      (1 : Nat) ≠ 0) ∧
    (HoverProvider.getCommandContext "A(1) x" 5 = some ⟨"A", 2, 0⟩ ∧
      closedAt ((("A(1) x" : String).toList.drop 2).take 3) false 0 = true) :=
  ⟨⟨rfl, rfl, by decide⟩, ⟨rfl, rfl⟩⟩



/-- The number of frames popped by the search loop never exceeds the fuel. -/
theorem traceAux_pops_le (corpus : String → Option (List String))
    (preds : String → List (String × Nat)) (hints : Hints) (tagIndex : Int)
    (targetType : String) :
    ∀ (fuel : Nat) (queue : List (String × Nat)) (visited : List String),
      (traceAux corpus preds hints tagIndex targetType fuel queue visited).pops ≤ fuel := by
  intro fuel
  induction fuel with
  | zero => intro queue visited; simp [traceAux]
  | succ f ih =>
    intro queue visited
    match queue with
    | [] => simp [traceAux]
    | (file, line) :: rest =>
      simp only [traceAux]
      cases hc : corpus file with
      | none => dsimp only; omega
      | some lines =>
        dsimp only
        by_cases hrange : 0 < line ∧ lines.length < line
        · rw [if_pos hrange]
          dsimp only
          omega
        · rw [if_neg hrange]
          cases hso : (scanFrame hints tagIndex targetType lines line).1 with
          | found c => dsimp only; omega
          | exhausted => dsimp only; exact Nat.succ_le_succ (ih rest visited)
          | boundary nm =>
            dsimp only
            by_cases hv : visited.contains nm = true
            · rw [if_pos hv]
              dsimp only
              exact Nat.succ_le_succ (ih rest visited)
            · rw [if_neg hv]
              dsimp only
              exact Nat.succ_le_succ (ih (rest ++ preds nm) (nm :: visited))

/-- A frame scan ending in a writer match scanned a line on which
findWriterCommand returns that command. -/
theorem scanFrame_found (hints : Hints) (tagIndex : Int) (targetType : String)
    (lines : List String) :
    ∀ (n : Nat) (c : String) (sc : List String),
      scanFrame hints tagIndex targetType lines n = (.found c, sc) →
      ∃ ℓ ∈ sc, findWriterCommand hints ℓ tagIndex targetType = some c := by
  intro n
  induction n with
  | zero => intro c sc h; simp [scanFrame] at h
  | succ m ih =>
    intro c sc h
    rw [scanFrame] at h
    cases hw : findWriterCommand hints (lines.getD m "") tagIndex targetType with
    | some c' =>
      rw [hw] at h
      dsimp only at h
      rw [Prod.mk.injEq] at h
      obtain ⟨h1, h2⟩ := h
      cases h1
      exact ⟨lines.getD m "", by rw [← h2]; exact List.mem_singleton.mpr rfl, hw⟩
    | none =>
      rw [hw] at h
      cases hl : labelDefMatch (lines.getD m "") with
      | some nm => rw [hl] at h; dsimp only at h; rw [Prod.mk.injEq] at h; cases h.1
      | none =>
        rw [hl] at h
        dsimp only at h
        rw [Prod.mk.injEq] at h
        obtain ⟨h1, h2⟩ := h
        obtain ⟨ℓ, hmem, hfw⟩ := ih c (scanFrame hints tagIndex targetType lines m).2
          (by rw [← h1])
        exact ⟨ℓ, by rw [← h2]; exact List.mem_cons_of_mem _ hmem, hfw⟩

/-- A frame scan not ending in a writer match scanned only lines on which
findWriterCommand returns nothing. -/
theorem scanFrame_no_writer (hints : Hints) (tagIndex : Int) (targetType : String)
    (lines : List String) :
    ∀ (n : Nat) (o : ScanOutcome) (sc : List String),
      scanFrame hints tagIndex targetType lines n = (o, sc) →
      (∀ c, o ≠ .found c) →
      ∀ ℓ ∈ sc, findWriterCommand hints ℓ tagIndex targetType = none := by
  intro n
  induction n with
  | zero =>
    intro o sc h _
    rw [scanFrame, Prod.mk.injEq] at h
    rw [← h.2]
    intro ℓ hl
    cases hl
  | succ m ih =>
    intro o sc h hno
    rw [scanFrame] at h
    cases hw : findWriterCommand hints (lines.getD m "") tagIndex targetType with
    | some c' =>
      rw [hw] at h
      dsimp only at h
      rw [Prod.mk.injEq] at h
      exact absurd h.1.symm (hno c')
    | none =>
      rw [hw] at h
      cases hl : labelDefMatch (lines.getD m "") with
      | some nm =>
        rw [hl] at h
        dsimp only at h
        rw [Prod.mk.injEq] at h
        rw [← h.2]
        intro ℓ hmem
        rw [List.mem_singleton] at hmem
        rw [hmem]
        exact hw
      | none =>
        rw [hl] at h
        dsimp only at h
        rw [Prod.mk.injEq] at h
        rw [← h.2]
        intro ℓ hmem
        rcases List.mem_cons.mp hmem with hfst | hrest
        · rw [hfst]; exact hw
        · exact ih (scanFrame hints tagIndex targetType lines m).1
            (scanFrame hints tagIndex targetType lines m).2 rfl
            (fun c hc => by rw [hc] at h; exact absurd h.1.symm (hno c)) ℓ hrest


/-- A successful search result is witnessed by a scanned line on which
findWriterCommand returns the resulting command. -/
theorem traceAux_res_found (corpus : String → Option (List String))
    (preds : String → List (String × Nat)) (hints : Hints) (tagIndex : Int)
    (targetType : String) :
    ∀ (fuel : Nat) (queue : List (String × Nat)) (visited : List String) (c : String),
      (traceAux corpus preds hints tagIndex targetType fuel queue visited).res =
          .ok (some c) →
      ∃ ℓ ∈ (traceAux corpus preds hints tagIndex targetType fuel queue visited).scanned,
        findWriterCommand hints ℓ tagIndex targetType = some c := by
  intro fuel
  induction fuel with
  | zero => intro queue visited c h; simp [traceAux] at h
  | succ f ih =>
    intro queue visited c
    match queue with
    | [] => intro h; simp [traceAux] at h
    | (file, line) :: rest =>
      simp only [traceAux]
      cases hc : corpus file with
      | none => intro h; dsimp only at h; cases h
      | some lines =>
        dsimp only
        by_cases hrange : 0 < line ∧ lines.length < line
        · rw [if_pos hrange]
          intro h
          cases h
        · rw [if_neg hrange]
          cases hso : (scanFrame hints tagIndex targetType lines line).1 with
          | found c' =>
            dsimp only
            intro h
            rw [Except.ok.injEq, Option.some.injEq] at h
            cases h
            exact scanFrame_found hints tagIndex targetType lines line c
              (scanFrame hints tagIndex targetType lines line).2 (by rw [← hso])
          | exhausted =>
            dsimp only
            intro h
            obtain ⟨ℓ, hmem, hfw⟩ := ih rest visited c h
            exact ⟨ℓ, List.mem_append_right _ hmem, hfw⟩
          | boundary nm =>
            dsimp only
            by_cases hv : visited.contains nm = true
            · rw [if_pos hv]
              dsimp only
              intro h
              obtain ⟨ℓ, hmem, hfw⟩ := ih rest visited c h
              exact ⟨ℓ, List.mem_append_right _ hmem, hfw⟩
            · rw [if_neg hv]
              dsimp only
              intro h
              obtain ⟨ℓ, hmem, hfw⟩ := ih (rest ++ preds nm) (nm :: visited) c h
              exact ⟨ℓ, List.mem_append_right _ hmem, hfw⟩

/-- A not-found search result means findWriterCommand rejected every scanned
line. -/
theorem traceAux_res_none (corpus : String → Option (List String))
    (preds : String → List (String × Nat)) (hints : Hints) (tagIndex : Int)
    (targetType : String) :
    ∀ (fuel : Nat) (queue : List (String × Nat)) (visited : List String),
      (traceAux corpus preds hints tagIndex targetType fuel queue visited).res = .ok none →
      ∀ ℓ ∈ (traceAux corpus preds hints tagIndex targetType fuel queue visited).scanned,
        findWriterCommand hints ℓ tagIndex targetType = none := by
  intro fuel
  induction fuel with
  | zero =>
    intro queue visited _ ℓ hmem
    simp [traceAux] at hmem
  | succ f ih =>
    intro queue visited
    match queue with
    | [] => intro h ℓ hmem; simp [traceAux] at hmem
    | (file, line) :: rest =>
      simp only [traceAux]
      cases hc : corpus file with
      | none => intro h; cases h
      | some lines =>
        dsimp only
        by_cases hrange : 0 < line ∧ lines.length < line
        · rw [if_pos hrange]
          intro h
          cases h
        · rw [if_neg hrange]
          cases hso : (scanFrame hints tagIndex targetType lines line).1 with
          | found c' =>
            dsimp only
            intro h
            cases h
          | exhausted =>
            dsimp only
            intro h ℓ hmem
            rcases List.mem_append.mp hmem with hs | ht
            · exact scanFrame_no_writer hints tagIndex targetType lines line
                (scanFrame hints tagIndex targetType lines line).1
                (scanFrame hints tagIndex targetType lines line).2 rfl
                (fun c hcon => by rw [hcon] at hso; cases hso) ℓ hs
            · exact ih rest visited h ℓ ht
          | boundary nm =>
            dsimp only
            by_cases hv : visited.contains nm = true
            · rw [if_pos hv]
              dsimp only
              intro h ℓ hmem
              rcases List.mem_append.mp hmem with hs | ht
              · exact scanFrame_no_writer hints tagIndex targetType lines line
                  (scanFrame hints tagIndex targetType lines line).1
                  (scanFrame hints tagIndex targetType lines line).2 rfl
                  (fun c hcon => by rw [hcon] at hso; cases hso) ℓ hs
              · exact ih rest visited h ℓ ht
            · rw [if_neg hv]
              dsimp only
              intro h ℓ hmem
              rcases List.mem_append.mp hmem with hs | ht
              · exact scanFrame_no_writer hints tagIndex targetType lines line
                  (scanFrame hints tagIndex targetType lines line).1
                  (scanFrame hints tagIndex targetType lines line).2 rfl
                  (fun c hcon => by rw [hcon] at hso; cases hso) ℓ hs
              · exact ih (rest ++ preds nm) (nm :: visited) h ℓ ht

/-- Characterization of findWriterCommand: it returns a command name exactly
when the line parses as a command invocation, the hint table has an entry for
that command, and some parameter of the entry both carries the target type
and has its (naively split) argument parse to the requested index. -/
theorem findWriterCommand_iff :
    ∀ (hints : Hints) (line : String) (tI : Int) (ty c : String),
      findWriterCommand hints line tI ty = some c ↔
        ∃ argsStr, lineInvocation line = some (c, argsStr) ∧
        ∃ hint, hints c = some hint ∧
        ∃ p ∈ hint.Params, ty ∈ p.Type' ∧
          jsParseIntOpt ((splitCommaTrim argsStr).get? p.Index) = some tI := by
  intro hints line tI ty c
  rw [findWriterCommand]
  cases hinv : lineInvocation line with
  | none => simp
  | some pr =>
    obtain ⟨nm, argsStr⟩ := pr
    dsimp only
    cases hh : hints nm with
    | none =>
      simp only [Option.some.injEq, Prod.mk.injEq]
      constructor
      · intro h; cases h
      · rintro ⟨argsStr', ⟨hceq, haeq⟩, hint', hh', hrest⟩
        rw [hceq] at hh
        rw [hh] at hh'
        cases hh'
    | some hint =>
      dsimp only
      by_cases hany : hint.Params.any (fun p => p.Type'.contains ty &&
          decide (jsParseIntOpt ((splitCommaTrim argsStr).get? p.Index) = some tI)) = true
      · rw [if_pos hany]
        simp only [Option.some.injEq, Prod.mk.injEq]
        constructor
        · intro hceq
          subst hceq
          obtain ⟨p, hp, hcond⟩ := List.any_eq_true.mp hany
          rw [Bool.and_eq_true] at hcond
          exact ⟨argsStr, ⟨rfl, rfl⟩, hint, hh, p, hp,
            List.elem_iff.mp hcond.1, of_decide_eq_true hcond.2⟩
        · rintro ⟨argsStr', ⟨hceq, haeq⟩, hint', hh', hrest⟩
          exact hceq
      · rw [if_neg hany]
        simp only [Option.some.injEq, Prod.mk.injEq]
        constructor
        · intro h; cases h
        · rintro ⟨argsStr', ⟨hceq, haeq⟩, hint', hh', p, hp, hty, hparse⟩
          subst hceq
          subst haeq
          rw [hh] at hh'
          cases hh'
          exact absurd (List.any_eq_true.mpr ⟨p, hp, by
            rw [Bool.and_eq_true]
            exact ⟨List.elem_iff.mpr hty, decide_eq_true hparse⟩⟩) hany

/-- A frame is readable: its file is in the corpus and its start line is
within the file. -/
def frameOk (corpus : String → Option (List String)) (fr : String × Nat) : Prop :=
  ∃ lines, corpus fr.1 = some lines ∧ fr.2 ≤ lines.length

/-- When every queued and every enqueueable frame is readable, the search
never raises: the result is ok. -/
theorem traceAux_ok (corpus : String → Option (List String))
    (preds : String → List (String × Nat)) (hints : Hints) (tagIndex : Int)
    (targetType : String)
    (hpreds : ∀ nm, ∀ fr ∈ preds nm, frameOk corpus fr) :
    ∀ (fuel : Nat) (queue : List (String × Nat)) (visited : List String),
      (∀ fr ∈ queue, frameOk corpus fr) →
      ∃ r, (traceAux corpus preds hints tagIndex targetType fuel queue visited).res = .ok r := by
  intro fuel
  induction fuel with
  | zero => intro queue visited _; exact ⟨none, rfl⟩
  | succ f ih =>
    intro queue visited hq
    match queue with
    | [] => exact ⟨none, rfl⟩
    | (file, line) :: rest =>
      obtain ⟨lines0, hc0, hlen0⟩ := hq (file, line) (List.mem_cons_self _ _)
      simp only [traceAux]
      cases hc : corpus file with
      | none => rw [hc0] at hc; cases hc
      | some lines =>
        rw [hc0, Option.some.injEq] at hc
        subst hc
        dsimp only
        have hrange : ¬(0 < line ∧ lines0.length < line) := by
          intro hcontra
          omega
        rw [if_neg hrange]
        cases hso : (scanFrame hints tagIndex targetType lines0 line).1 with
        | found c => exact ⟨some c, rfl⟩
        | exhausted =>
          obtain ⟨r, hr⟩ := ih rest visited
            (fun fr hfr => hq fr (List.mem_cons_of_mem _ hfr))
          exact ⟨r, hr⟩
        | boundary nm =>
          dsimp only
          by_cases hv : visited.contains nm = true
          · rw [if_pos hv]
            obtain ⟨r, hr⟩ := ih rest visited
              (fun fr hfr => hq fr (List.mem_cons_of_mem _ hfr))
            exact ⟨r, hr⟩
          · rw [if_neg hv]
            obtain ⟨r, hr⟩ := ih (rest ++ preds nm) (nm :: visited) (by
              intro fr hfr
              rcases List.mem_append.mp hfr with hfr1 | hfr2
              · exact hq fr (List.mem_cons_of_mem _ hfr1)
              · exact hpreds nm fr hfr2)
            exact ⟨r, hr⟩

/-- A frame scan stops at the first label-definition boundary below the start
line: only the lines strictly between the boundary and the start are
examined. -/
theorem scanFrame_first_boundary :
    ∀ (hints : Hints) (tI : Int) (ty : String) (lines : List String) (n j : Nat) (nm : String),
      j < n →
      labelDefMatch (lines.getD j "") = some nm →
      findWriterCommand hints (lines.getD j "") tI ty = none →
      (∀ k, j < k → k < n →
        findWriterCommand hints (lines.getD k "") tI ty = none ∧
        labelDefMatch (lines.getD k "") = none) →
      ∃ sc, scanFrame hints tI ty lines n = (.boundary nm, sc) ∧ sc.length = n - j := by
  intro hints tI ty lines n
  induction n with
  | zero => intro j nm hj; exact absurd hj (Nat.not_lt_zero j)
  | succ m ih =>
    intro j nm hj hlbl hw hmid
    by_cases hjm : j = m
    · subst hjm
      rw [scanFrame, hw, hlbl]
      exact ⟨[lines.getD j ""], rfl, by simp only [List.length_singleton]; omega⟩
    · have hjm' : j < m := by omega
      have hm := hmid m (by omega) (by omega)
      rw [scanFrame, hm.1, hm.2]
      obtain ⟨sc, hsc, hlen⟩ := ih j nm hjm' hlbl hw (fun k h1 h2 => hmid k h1 (by omega))
      rw [hsc]
      refine ⟨lines.getD m "" :: sc, rfl, ?_⟩
      simp only [List.length_cons]
      omega

/-- Empty hint table. -/
def hintsEmpty : Hints := fun _ => none

/-- Hint table with one writer command SET_NAME whose argument 0 is a name
slot (type TagIndex). -/
def hintsSetName : Hints := fun n =>
  if n = "SET_NAME" then some ⟨[⟨0, ["TagIndex"]⟩]⟩ else none

/-- Corpus with SET_NAME(3) two lines above the reference point at line 2. -/
def corpusWriter : String → Option (List String) := fun f =>
  if f = "f.ev" then some ["MSG", "SET_NAME(3)", "REF"] else none

/-- Corpus whose only label A is called only from inside itself. -/
def corpusSelfLoop : String → Option (List String) := fun f =>
  if f = "f.ev" then some ["Label @A", "Call @A", "MSG"] else none

/-- Caller table of the self-loop corpus: label A's only caller is the line
inside A itself. -/
def predsSelfLoop : String → List (String × Nat) := fun nm =>
  if nm = "A" then [("f.ev", 1)] else []

/-- Corpus in which label A's caller lives in a file that fails to read. -/
def corpusMissing : String → Option (List String) := fun f =>
  if f = "a.ev" then some ["Label @A", "x"] else none

/-- Caller table pointing label A at the unreadable file. -/
def predsToMissing : String → List (String × Nat) := fun nm =>
  if nm = "A" then [("missing.ev", 1)] else []

/-- C2: the tracer maps group 1 to the name slot type TagIndex, group 2 to
the numeric slot type NumberIndex and any other group to TagIndex; a line
yields a writer exactly when it parses as a command invocation whose hint
entry has a parameter carrying the target type whose argument parses to the
requested tag index; and a completed trace returns a command name exactly
when some scanned line yields a writer. -/
theorem resolveTagIndex_returns_writer :
    (groupToType 1 = "TagIndex" ∧ groupToType 2 = "NumberIndex" ∧
      ∀ g : Int, g ≠ 1 → g ≠ 2 → groupToType g = "TagIndex")
    ∧ (∀ (hints : Hints) (line : String) (tI : Int) (ty c : String),
        findWriterCommand hints line tI ty = some c ↔
          ∃ argsStr, lineInvocation line = some (c, argsStr) ∧
          ∃ hint, hints c = some hint ∧
          ∃ p ∈ hint.Params, ty ∈ p.Type' ∧
            jsParseIntOpt ((splitCommaTrim argsStr).get? p.Index) = some tI)
    ∧ (∀ (corpus : String → Option (List String)) (preds : String → List (String × Nat))
        (hints : Hints) (f : String) (l : Nat) (tI g : Int) (r : Option String),
        (resolveTagIndex corpus preds hints f l tI g).res = .ok r →
        (r.isSome ↔ ∃ ℓ ∈ (resolveTagIndex corpus preds hints f l tI g).scanned,
          (findWriterCommand hints ℓ tI (groupToType g)).isSome)) := by
  refine ⟨⟨rfl, rfl, ?_⟩, findWriterCommand_iff, ?_⟩
  · intro g h1 h2
    rw [groupToType, if_neg h1, if_neg h2]
  · intro corpus preds hints f l tI g r hres
    cases r with
    | none =>
      simp only [Option.isSome_none, Bool.false_eq_true, false_iff]
      rintro ⟨ℓ, hmem, hsome⟩
      rw [traceAux_res_none corpus preds hints tI (groupToType g) 50
        [(f, l)] [] hres ℓ hmem] at hsome
      cases hsome
    | some c =>
      simp only [Option.isSome_some, true_iff]
      obtain ⟨ℓ, hmem, hw⟩ := traceAux_res_found corpus preds hints tI (groupToType g) 50
        [(f, l)] [] c hres
      exact ⟨ℓ, hmem, by rw [hw]; rfl⟩

/-- C2 witness: with SET_NAME(3) two lines above the origin and argument 0
hinted as a name slot, the trace for tagIndex 3, group 1 returns SET_NAME,
and the scanned-line characterization holds there. -/
theorem resolveTagIndex_returns_writer_witness :
    (resolveTagIndex corpusWriter (fun _ => []) hintsSetName "f.ev" 2 3 1).res =
        .ok (some "SET_NAME") ∧
    ((some "SET_NAME" : Option String).isSome ↔
      ∃ ℓ ∈ (resolveTagIndex corpusWriter (fun _ => []) hintsSetName "f.ev" 2 3 1).scanned,
        (findWriterCommand hintsSetName ℓ 3 (groupToType 1)).isSome) :=
  ⟨rfl, resolveTagIndex_returns_writer.2.2 corpusWriter (fun _ => []) hintsSetName
    "f.ev" 2 3 1 (some "SET_NAME") rfl⟩

/-- C3: the backward search pops at most 50 frames on any corpus and request;
each frame's upward scan stops at the first label-definition boundary,
examining only the lines above it up to the frame line; and on the concrete
self-referencing label the trace ends via the visited set after two pops with
the not-found result rather than looping. -/
theorem trace_bounded_termination :
    (∀ (corpus : String → Option (List String)) (preds : String → List (String × Nat))
        (hints : Hints) (f : String) (l : Nat) (tI g : Int),
      (resolveTagIndex corpus preds hints f l tI g).pops ≤ 50)
    ∧ (∀ (hints : Hints) (tI : Int) (ty : String) (lines : List String) (n j : Nat)
        (nm : String),
        j < n →
        labelDefMatch (lines.getD j "") = some nm →
        findWriterCommand hints (lines.getD j "") tI ty = none →
        (∀ k, j < k → k < n →
          findWriterCommand hints (lines.getD k "") tI ty = none ∧
          labelDefMatch (lines.getD k "") = none) →
        ∃ sc, scanFrame hints tI ty lines n = (.boundary nm, sc) ∧ sc.length = n - j)
    ∧ resolveTagIndex corpusSelfLoop predsSelfLoop hintsEmpty "f.ev" 2 3 1 =
        ⟨.ok none, ["Call @A", "Label @A", "Label @A"], 2⟩ :=
  ⟨fun corpus preds hints f l tI g =>
    traceAux_pops_le corpus preds hints tI (groupToType g) 50 [(f, l)] [],
   scanFrame_first_boundary, rfl⟩

/-- C3 witness: the self-loop trace observes the 50-pop bound, and a concrete
frame scan stops at the label at line 0 after examining two lines. -/
theorem trace_bounded_termination_witness :
    (resolveTagIndex corpusSelfLoop predsSelfLoop hintsEmpty "f.ev" 2 3 1).pops ≤ 50 ∧
    ∃ sc, scanFrame hintsEmpty 3 "TagIndex" ["Label @A", "X"] 2 = (.boundary "A", sc) ∧
      sc.length = 2 :=
  ⟨trace_bounded_termination.1 corpusSelfLoop predsSelfLoop hintsEmpty "f.ev" 2 3 1,
   trace_bounded_termination.2.1 hintsEmpty 3 "TagIndex" ["Label @A", "X"] 2 0 "A"
     (by decide) rfl rfl
     (fun k h1 h2 => by
       have hk : k = 1 := by omega
       subst hk
       exact ⟨rfl, rfl⟩)⟩

/-- C4 (amended): when the origin frame and every indexed caller frame are
readable, resolveTagIndex returns a result (a command name or the null
not-found value) rather than raising; an exhausted step budget or an emptied
frontier yields the not-found value.  A file read that fails mid-scan,
however, escapes resolveTagIndex as an exception (see the counterexample). -/
theorem resolveTagIndex_error_handling :
    (∀ (corpus : String → Option (List String)) (preds : String → List (String × Nat))
        (hints : Hints) (startFile : String) (startLine : Nat) (tI g : Int)
        (lines0 : List String),
      corpus startFile = some lines0 → startLine ≤ lines0.length →
      (∀ nm fr, fr ∈ preds nm → frameOk corpus fr) →
      ∃ r, (resolveTagIndex corpus preds hints startFile startLine tI g).res = .ok r)
    ∧ (∀ (corpus : String → Option (List String)) (preds : String → List (String × Nat))
        (hints : Hints) (tI : Int) (ty : String) (q : List (String × Nat))
        (v : List String),
      (traceAux corpus preds hints tI ty 0 q v).res = .ok none)
    ∧ (∀ (corpus : String → Option (List String)) (preds : String → List (String × Nat))
        (hints : Hints) (tI : Int) (ty : String) (fuel : Nat) (v : List String),
      (traceAux corpus preds hints tI ty fuel [] v).res = .ok none) := by
  refine ⟨?_, fun _ _ _ _ _ _ _ => rfl, ?_⟩
  · intro corpus preds hints startFile startLine tI g lines0 hc hlen hpreds
    exact traceAux_ok corpus preds hints tI (groupToType g)
      (fun nm fr hfr => hpreds nm fr hfr) 50 [(startFile, startLine)] []
      (fun fr hfr => by
        rw [List.mem_singleton] at hfr
        rw [hfr]
        exact ⟨lines0, hc, hlen⟩)
  · intro corpus preds hints tI ty fuel v
    cases fuel <;> rfl

/-- C4 witness: on a fully readable corpus the trace produces an ok result. -/
theorem resolveTagIndex_error_handling_witness :
    ∃ r, (resolveTagIndex corpusWriter (fun _ => []) hintsSetName "f.ev" 2 3 1).res =
      .ok r :=
  resolveTagIndex_error_handling.1 corpusWriter (fun _ => []) hintsSetName "f.ev" 2 3 1
    ["MSG", "SET_NAME(3)", "REF"] rfl (by decide)
    (fun nm fr hfr => absurd hfr (List.not_mem_nil fr))

/-- C4 counterexample: with label A's caller in an unreadable file, the trace
pops the caller frame, the file open fails, and the failure propagates as an
exception instead of the claimed null result. -/
theorem resolveTagIndex_read_failure_counterexample :
    (resolveTagIndex corpusMissing predsToMissing hintsEmpty "a.ev" 2 3 1).res =
      .error () := rfl

/-- All label-definition registrations of an index build, in order. -/
def defEvents (corpus : List (String × List String)) : List (String × Loc) :=
  corpus.flatMap (fun f => defEventsOfFile f.1 f.2)

/-- All call-site registrations of an index build, in order. -/
def refEvents (corpus : List (String × List String)) : List (String × Loc) :=
  corpus.flatMap (fun f => refEventsOfFile f.1 f.2)

/-- Lookup after a fold of overwriting sets returns the last-registered value
for the key, falling back to the prior map. -/
theorem foldSet_lookup :
    ∀ (events : List (String × Loc)) (m : List (String × Loc)) (name : String),
      getAssoc (events.foldl (fun a e => setAssoc a e.1 e.2) m) name =
        match events.reverse.find? (fun e => e.1 == name) with
        | some e => some e.2
        | none => getAssoc m name := by
  intro events
  induction events with
  | nil => intro m name; rfl
  | cons e rest ih =>
    intro m name
    rw [List.foldl_cons, ih, List.reverse_cons, List.find?_append]
    cases hr : rest.reverse.find? (fun x => x.1 == name) with
    | some g => simp [Option.or]
    | none =>
      simp only [Option.or, List.find?]
      by_cases he : e.1 = name
      · rw [show (e.1 == name) = true from beq_iff_eq.mpr he]
        dsimp only
        rw [← he, getAssoc_setAssoc_same]
      · rw [show (e.1 == name) = false from beq_eq_false_iff_ne.mpr he]
        dsimp only
        rw [getAssoc_setAssoc_other _ _ _ _ (fun hh => he hh.symm)]

/-- Lookup after a fold of appends returns the prior list extended with every
registered value for the key, in registration order. -/
theorem foldAppend_lookup :
    ∀ (events : List (String × Loc)) (m : List (String × List Loc)) (name : String),
      (getAssoc (events.foldl (fun a e => appendRef a e.1 e.2) m) name).getD [] =
        (getAssoc m name).getD [] ++
          (events.filter (fun e => e.1 == name)).map (fun e => e.2) := by
  intro events
  induction events with
  | nil => intro m name; simp
  | cons e rest ih =>
    intro m name
    rw [List.foldl_cons, ih, List.filter_cons]
    by_cases he : e.1 = name
    · rw [show (e.1 == name) = true from beq_iff_eq.mpr he]
      have hstep : (getAssoc (appendRef m e.1 e.2) name).getD [] =
          (getAssoc m name).getD [] ++ [e.2] := by
        subst he
        rw [appendRef]
        cases hm : getAssoc m e.1 with
        | none => rw [getAssoc_setAssoc_same]; simp
        | some l => rw [getAssoc_setAssoc_same]; simp
      rw [hstep]
      simp
    · rw [show (e.1 == name) = false from beq_eq_false_iff_ne.mpr he]
      have hlk : getAssoc (appendRef m e.1 e.2) name = getAssoc m name := by
        rw [appendRef]
        cases hm : getAssoc m e.1 with
        | none => exact getAssoc_setAssoc_other _ _ _ _ (fun hh => he hh.symm)
        | some l => exact getAssoc_setAssoc_other _ _ _ _ (fun hh => he hh.symm)
      rw [hlk]
      simp

/-- The definition-registration fold only touches the definition table. -/
theorem foldDefs_proj :
    ∀ (events : List (String × Loc)) (idx : ScriptIndex),
      ((events.foldl (fun a e =>
          { a with labelDefinitions := setAssoc a.labelDefinitions e.1 e.2 }) idx).labelDefinitions =
        events.foldl (fun m e => setAssoc m e.1 e.2) idx.labelDefinitions) ∧
      ((events.foldl (fun a e =>
          { a with labelDefinitions := setAssoc a.labelDefinitions e.1 e.2 }) idx).jumpReferences =
        idx.jumpReferences) := by
  intro events
  induction events with
  | nil => intro idx; exact ⟨rfl, rfl⟩
  | cons e rest ih =>
    intro idx
    rw [List.foldl_cons, List.foldl_cons]
    exact ih _

/-- The reference-registration fold only touches the caller table. -/
theorem foldRefs_proj :
    ∀ (events : List (String × Loc)) (idx : ScriptIndex),
      ((events.foldl (fun a e =>
          { a with jumpReferences := appendRef a.jumpReferences e.1 e.2 }) idx).jumpReferences =
        events.foldl (fun m e => appendRef m e.1 e.2) idx.jumpReferences) ∧
      ((events.foldl (fun a e =>
          { a with jumpReferences := appendRef a.jumpReferences e.1 e.2 }) idx).labelDefinitions =
        idx.labelDefinitions) := by
  intro events
  induction events with
  | nil => intro idx; exact ⟨rfl, rfl⟩
  | cons e rest ih =>
    intro idx
    rw [List.foldl_cons, List.foldl_cons]
    exact ih _

/-- parseFile registers the file's definitions into the definition table and
its call sites into the caller table, independently. -/
theorem parseFile_fields (idx : ScriptIndex) (file : String) (lines : List String) :
    (parseFile idx file lines).labelDefinitions =
      (defEventsOfFile file lines).foldl (fun m e => setAssoc m e.1 e.2)
        idx.labelDefinitions ∧
    (parseFile idx file lines).jumpReferences =
      (refEventsOfFile file lines).foldl (fun m e => appendRef m e.1 e.2)
        idx.jumpReferences := by
  rw [parseFile]
  constructor
  · rw [(foldRefs_proj (refEventsOfFile file lines) _).2,
      (foldDefs_proj (defEventsOfFile file lines) idx).1]
  · rw [(foldRefs_proj (refEventsOfFile file lines) _).1,
      (foldDefs_proj (defEventsOfFile file lines) idx).2]

/-- An index build is the event-fold of all files' definitions and of all
files' call sites. -/
theorem refreshIndex_fields :
    ∀ (corpus : List (String × List String)) (idx : ScriptIndex),
      ((corpus.foldl (fun a f => parseFile a f.1 f.2) idx).labelDefinitions =
        (defEvents corpus).foldl (fun m e => setAssoc m e.1 e.2) idx.labelDefinitions) ∧
      ((corpus.foldl (fun a f => parseFile a f.1 f.2) idx).jumpReferences =
        (refEvents corpus).foldl (fun m e => appendRef m e.1 e.2) idx.jumpReferences) := by
  intro corpus
  induction corpus with
  | nil => intro idx; exact ⟨rfl, rfl⟩
  | cons f rest ih =>
    intro idx
    rw [List.foldl_cons]
    have hd : defEvents (f :: rest) = defEventsOfFile f.1 f.2 ++ defEvents rest := rfl
    have hr : refEvents (f :: rest) = refEventsOfFile f.1 f.2 ++ refEvents rest := rfl
    constructor
    · rw [(ih (parseFile idx f.1 f.2)).1, (parseFile_fields idx f.1 f.2).1, hd,
        List.foldl_append]
    · rw [(ih (parseFile idx f.1 f.2)).2, (parseFile_fields idx f.1 f.2).2, hr,
        List.foldl_append]

/-- Corpus in which file A defines label Foo and file B calls it. -/
def corpusAB : List (String × List String) :=
  [("A.ev", ["Label @Foo"]), ("B.ev", ["x", "Call @Foo"])]

/-- C7: after an index build, the stored definition of every label is the
last-registered one (later definitions overwrite earlier), while the caller
list holds every call-site registration in order; concretely, with Foo
defined in file A and called from file B, the definition lookup returns A's
location and getPredecessors includes B's call site. -/
theorem scriptIndex_overwrite_append :
    (∀ (corpus : List (String × List String)) (name : String),
      getDefinition (refreshIndex corpus) name =
        ((defEvents corpus).reverse.find? (fun e => e.1 == name)).map (fun e => e.2))
    ∧ (∀ (corpus : List (String × List String)) (name : String),
      getPredecessors (refreshIndex corpus) name =
        ((refEvents corpus).filter (fun e => e.1 == name)).map (fun e => e.2))
    ∧ getDefinition (refreshIndex corpusAB) "Foo" = some ⟨"A.ev", 0, 0⟩
    ∧ ⟨"B.ev", 1, 0⟩ ∈ getPredecessors (refreshIndex corpusAB) "Foo" := by
  refine ⟨?_, ?_, rfl, ?_⟩
  · intro corpus name
    rw [getDefinition, refreshIndex, (refreshIndex_fields corpus ⟨[], []⟩).1,
      foldSet_lookup]
    cases (defEvents corpus).reverse.find? (fun e => e.1 == name) <;> rfl
  · intro corpus name
    rw [getPredecessors, refreshIndex, (refreshIndex_fields corpus ⟨[], []⟩).2,
      foldAppend_lookup]
    rfl
  · rw [show getPredecessors (refreshIndex corpusAB) "Foo" = [⟨"B.ev", 1, 0⟩] from rfl]
    exact List.mem_singleton.mpr rfl
